import Mathlib

/-!
Verification of the Fitch–Cheney card-trick core of the CardTrick repository.

The embedding below transcribes the TypeScript core:
  * `src/verify_logic.ts` lines 13-83 (`SUITS`, `SUIT_ORDER`, `getCardRank`,
    `getFitchCheneyArrangement`, `decode`);
  * `src/src/App.tsx` lines 24, 39-51, 53-109 (the same constants and an
    identical `getFitchCheneyArrangement` body preceded by a hand-size guard).

Cards are modelled by their (suit, value) identity.  The TypeScript `Card`
also carries an `id` string and a `displayValue`; both are presentation-layer
data: every card constructed by the application has an `id` in bijection with
its (suit, value) pair, so the `id`-based comparisons of the source coincide
with structural (suit, value) equality modelled here, and `displayValue` is
never read by the core.

JavaScript `%` on the nonnegative operands appearing in the source agrees
with `Nat.mod`; the source's `(b - a + 13) % 13` is transcribed as
`(b + 13 - a) % 13`, identical for `a ≤ 13` (always true for card values),
while avoiding truncated subtraction.  `Array.prototype.sort` with the
comparator `(a, b) => getCardRank(a) - getCardRank(b)` is a stable sort by
`getCardRank`, transcribed as a stable insertion sort.  A JavaScript code
path that crashes on `undefined` (destructuring a too-short array) is
modelled by `Option.none`; the `throw` in App.tsx is modelled by
`Except.error`.
-/

/-- The four suits, `type Suit` of the source. -/
inductive Suit : Type
  | clubs
  | diamonds
  | hearts
  | spades
deriving DecidableEq, Repr

/-- A playing card identified by suit and value (`interface Card`, keeping
the (suit, value) identity and dropping the presentation-only `id` and
`displayValue` fields). -/
structure Card : Type where
  suit : Suit
  value : Nat
deriving DecidableEq, Repr

/-- `const SUITS: Suit[] = ['spades', 'hearts', 'clubs', 'diamonds']` —
the fixed scan order used by the pair-selection loop. -/
def SUITS : List Suit := [Suit.spades, Suit.hearts, Suit.clubs, Suit.diamonds]

/-- `const SUIT_ORDER = { clubs: 0, diamonds: 1, hearts: 2, spades: 3 }`. -/
def SUIT_ORDER : Suit → Nat
  | Suit.clubs => 0
  | Suit.diamonds => 1
  | Suit.hearts => 2
  | Suit.spades => 3

/-- `const getCardRank = (c: Card) => (c.value - 1) * 4 + SUIT_ORDER[c.suit]`. -/
def getCardRank (c : Card) : Nat := (c.value - 1) * 4 + SUIT_ORDER c.suit

/-- A card of the standard deck: value between 1 (ace) and 13 (king). -/
def ValidCard (c : Card) : Prop := 1 ≤ c.value ∧ c.value ≤ 13

instance : DecidablePred ValidCard := fun c => by unfold ValidCard; infer_instance

/-- A valid hand: exactly 5 pairwise-distinct standard cards. -/
def ValidHand (h : List Card) : Prop :=
  h.length = 5 ∧ h.Nodup ∧ ∀ c ∈ h, ValidCard c

instance : DecidablePred ValidHand := fun h => by unfold ValidHand; infer_instance

/-- Insert a card into a list, before the first card of `getCardRank` at
least as large; auxiliary to `sortByRank`. -/
def insertByRank (c : Card) : List Card → List Card
  | [] => [c]
  | d :: ds => if getCardRank c ≤ getCardRank d then c :: d :: ds else d :: insertByRank c ds

/-- Stable sort by `getCardRank`, the embedding of
`[...cards].sort((a, b) => getCardRank(a) - getCardRank(b))`. -/
def sortByRank : List Card → List Card
  | [] => []
  | c :: cs => insertByRank c (sortByRank cs)

/-- `(b - a + 13) % 13`, the clockwise distance from value `a` to value `b`
on the 13-hour clock, written so that `Nat` subtraction never truncates. -/
def clockDist (a b : Nat) : Nat := (b + 13 - a) % 13

/-- The `switch (offset)` table of the encoder: offset 1 ↦ (S,M,L),
2 ↦ (S,L,M), 3 ↦ (M,S,L), 4 ↦ (M,L,S), 5 ↦ (L,S,M), 6 ↦ (L,M,S), with the
`default` arm repeating (S,M,L). -/
def permute (offset : Nat) (low mid high : Card) : List Card :=
  match offset with
  | 1 => [low, mid, high]
  | 2 => [low, high, mid]
  | 3 => [mid, low, high]
  | 4 => [mid, high, low]
  | 5 => [high, low, mid]
  | 6 => [high, mid, low]
  | _ => [low, mid, high]

/-- The return value of the encoder:
`return { indicator, hidden, codeCards }`. -/
structure Arrangement : Type where
  indicator : Card
  hidden : Card
  codeCards : List Card
deriving DecidableEq, Repr

/-- The cards of `hand` of suit `s` in hand order — the list
`suitCounts[s]` built by `hand.forEach(c => suitCounts[c.suit].push(c))`. -/
def suitCards (hand : List Card) (s : Suit) : List Card :=
  hand.filter fun c => decide (c.suit = s)

/-- The `for (const suit of SUITS)` loop: the first suit in `SUITS` order
holding at least two cards of the hand (`none` when the loop leaves
`sameSuitPair` empty). -/
def findPairSuit (hand : List Card) : Option Suit :=
  SUITS.find? fun s => decide (2 ≤ (suitCards hand s).length)

/-- Steps 3-4 of the encoder for a chosen indicator/hidden pair and offset:
filter out the pair (`hand.filter(c => c.id !== indicator.id && c.id !==
hidden.id)`), sort the rest, destructure `[low, mid, high]` and apply the
`switch` table.  A remainder of fewer than 3 cards (impossible for 5-card
hands) would make the JavaScript destructuring produce `undefined`s; that
path is `none`. -/
def mkArrangement (hand : List Card) (indicator hidden : Card) (offset : Nat) :
    Option Arrangement :=
  match sortByRank (hand.filter fun c => decide (c ≠ indicator) && decide (c ≠ hidden)) with
  | low :: mid :: high :: _ => some ⟨indicator, hidden, permute offset low mid high⟩
  | _ => none

/-- Step 2 of the encoder: `if (dist1to2 > 0 && dist1to2 <= 6)` the pair is
(indicator c1, hidden c2) with offset `dist1to2`, else (indicator c2,
hidden c1) with offset `dist2to1`. -/
def arrangeFromPair (hand : List Card) (c1 c2 : Card) : Option Arrangement :=
  if 0 < clockDist c1.value c2.value ∧ clockDist c1.value c2.value ≤ 6 then
    mkArrangement hand c1 c2 (clockDist c1.value c2.value)
  else
    mkArrangement hand c2 c1 (clockDist c2.value c1.value)

/-- `getFitchCheneyArrangement` of `src/verify_logic.ts` (lines 18-64): the
encoder.  `none` models the crash paths of the JavaScript original
(destructuring `[c1, c2]` from an empty `sameSuitPair`, or `[low, mid,
high]` from a too-short remainder), reachable only outside valid 5-card
hands. -/
def getFitchCheneyArrangement (hand : List Card) : Option Arrangement :=
  match findPairSuit hand with
  | none => none
  | some s =>
    match suitCards hand s with
    | c1 :: c2 :: _ => arrangeFromPair hand c1 c2
    | _ => none

/-- `getFitchCheneyArrangement` of `src/src/App.tsx` (lines 53-109),
transcribed independently of the verify_logic copy: the body is guarded by
`if (hand.length !== 5) throw new Error("Need exactly 5 cards")`, modelled
with `Except.error`. -/
def getFitchCheneyArrangementApp (hand : List Card) :
    Except String (Option Arrangement) :=
  if hand.length = 5 then
    Except.ok
      (match SUITS.find? (fun s => decide (2 ≤ (hand.filter fun c => decide (c.suit = s)).length)) with
      | none => none
      | some s =>
        match hand.filter fun c => decide (c.suit = s) with
        | c1 :: c2 :: _ =>
          if 0 < clockDist c1.value c2.value ∧ clockDist c1.value c2.value ≤ 6 then
            match sortByRank (hand.filter fun c => decide (c ≠ c1) && decide (c ≠ c2)) with
            | low :: mid :: high :: _ =>
              some ⟨c1, c2, permute (clockDist c1.value c2.value) low mid high⟩
            | _ => none
          else
            match sortByRank (hand.filter fun c => decide (c ≠ c2) && decide (c ≠ c1)) with
            | low :: mid :: high :: _ =>
              some ⟨c2, c1, permute (clockDist c2.value c1.value) low mid high⟩
            | _ => none
        | _ => none)
  else Except.error "Need exactly 5 cards"

/-- The permutation-matching `if`/`else if` chain of `decode`: compares the
observed order `(c1, c2, c3)` with the sorted `(L, M, H)` and yields the
offset, `0` when no pattern matches. -/
def decodeOffset (c1 c2 c3 L M H : Card) : Nat :=
  if c1 = L ∧ c2 = M ∧ c3 = H then 1
  else if c1 = L ∧ c2 = H ∧ c3 = M then 2
  else if c1 = M ∧ c2 = L ∧ c3 = H then 3
  else if c1 = M ∧ c2 = H ∧ c3 = L then 4
  else if c1 = H ∧ c2 = L ∧ c3 = M then 5
  else if c1 = H ∧ c2 = M ∧ c3 = L then 6
  else 0

/-- `decode` of `src/verify_logic.ts` (lines 66-83): sort the code cards,
recover the offset by permutation matching, and return
`{...indicator, value: (indicator.value + offset - 1) % 13 + 1}`.  Fewer
than three code cards crash the JavaScript destructuring (`none` here); the
source never validates its input otherwise. -/
def decode (indicator : Card) (codeCards : List Card) : Option Card :=
  match sortByRank codeCards, codeCards with
  | L :: M :: H :: _, c1 :: c2 :: c3 :: _ =>
    some ⟨indicator.suit, (indicator.value + decodeOffset c1 c2 c3 L M H - 1) % 13 + 1⟩
  | _, _ => none

/-! ## Basic lemmas about the card ordering -/

/-- `getCardRank` separates distinct standard cards. -/
lemma getCardRank_ne (a b : Card) (ha : ValidCard a) (hb : ValidCard b)
    (hne : a ≠ b) : getCardRank a ≠ getCardRank b := by
  obtain ⟨ha1, ha2⟩ := ha
  obtain ⟨hb1, hb2⟩ := hb
  intro h
  apply hne
  obtain ⟨sa, va⟩ := a
  obtain ⟨sb, vb⟩ := b
  simp only [getCardRank] at h
  simp only at ha1 ha2 hb1 hb2
  cases sa <;> cases sb <;> simp_all [SUIT_ORDER] <;> omega

lemma ne_of_rank_lt {a b : Card} (h : getCardRank a < getCardRank b) : a ≠ b := by
  intro he
  subst he
  omega

/-! ## Lemmas about `sortByRank` -/

lemma insertByRank_perm (c : Card) (l : List Card) :
    (insertByRank c l).Perm (c :: l) := by
  induction l with
  | nil => simp [insertByRank]
  | cons d ds ih =>
    simp only [insertByRank]
    split
    · exact List.Perm.refl _
    · exact (ih.cons d).trans (List.Perm.swap c d ds)

lemma sortByRank_perm (l : List Card) : (sortByRank l).Perm l := by
  induction l with
  | nil => simp [sortByRank]
  | cons c cs ih =>
    simp only [sortByRank]
    exact (insertByRank_perm c (sortByRank cs)).trans (ih.cons c)

lemma sortByRank_length (l : List Card) : (sortByRank l).length = l.length :=
  (sortByRank_perm l).length_eq

/-- Sorting a concrete three-card list yields a triple whose ranks ascend. -/
lemma sortByRank_three_sorted (x y z low mid high : Card)
    (h : sortByRank [x, y, z] = [low, mid, high]) :
    getCardRank low ≤ getCardRank mid ∧ getCardRank mid ≤ getCardRank high := by
  by_cases hyz : getCardRank y ≤ getCardRank z
  · by_cases hxy : getCardRank x ≤ getCardRank y
    · simp only [sortByRank, insertByRank, if_pos hyz, if_pos hxy, List.cons.injEq,
        and_true] at h
      obtain ⟨rfl, rfl, rfl⟩ := h
      exact ⟨hxy, hyz⟩
    · by_cases hxz : getCardRank x ≤ getCardRank z
      · simp only [sortByRank, insertByRank, if_pos hyz, if_neg hxy, if_pos hxz,
          List.cons.injEq, and_true] at h
        obtain ⟨rfl, rfl, rfl⟩ := h
        omega
      · simp only [sortByRank, insertByRank, if_pos hyz, if_neg hxy, if_neg hxz,
          List.cons.injEq, and_true] at h
        obtain ⟨rfl, rfl, rfl⟩ := h
        omega
  · by_cases hxz : getCardRank x ≤ getCardRank z
    · simp only [sortByRank, insertByRank, if_neg hyz, if_pos hxz, List.cons.injEq,
        and_true] at h
      obtain ⟨rfl, rfl, rfl⟩ := h
      omega
    · by_cases hxy : getCardRank x ≤ getCardRank y
      · simp only [sortByRank, insertByRank, if_neg hyz, if_neg hxz, if_pos hxy,
          List.cons.injEq, and_true] at h
        obtain ⟨rfl, rfl, rfl⟩ := h
        omega
      · simp only [sortByRank, insertByRank, if_neg hyz, if_neg hxz, if_neg hxy,
          List.cons.injEq, and_true] at h
        obtain ⟨rfl, rfl, rfl⟩ := h
        omega

/-! ## Lemmas about removing the pair from the hand -/

lemma mem_of_mem_cons_ne {c x : Card} {t : List Card} (h : c ∈ x :: t)
    (hne : c ≠ x) : c ∈ t := by
  rcases List.mem_cons.mp h with rfl | h
  · exact absurd rfl hne
  · exact h

lemma two_le_length_of_mem {t : List Card} {a b : Card}
    (ha : a ∈ t) (hb : b ∈ t) (hne : a ≠ b) : 2 ≤ t.length := by
  match t with
  | [] => simp at ha
  | [x] =>
    simp only [List.mem_singleton] at ha hb
    exact absurd (ha.trans hb.symm) hne
  | x :: y :: t' => simp [List.length_cons]

lemma length_filter_ne (l : List Card) (b : Card) (hnd : l.Nodup) (hb : b ∈ l) :
    (l.filter fun c => decide (c ≠ b)).length = l.length - 1 := by
  induction l with
  | nil => simp at hb
  | cons x t ih =>
    obtain ⟨hx, hndt⟩ := List.nodup_cons.mp hnd
    by_cases hxb : x = b
    · subst hxb
      have heq : t.filter (fun c => decide (c ≠ x)) = t := by
        apply List.filter_eq_self.mpr
        intro c hc
        have hcx : c ≠ x := fun he => hx (he ▸ hc)
        simp [hcx]
      rw [List.filter_cons, if_neg (by simp), heq]
      simp
    · have hbt : b ∈ t := mem_of_mem_cons_ne hb (fun e => hxb e.symm)
      have hpos : 0 < t.length := List.length_pos.mpr (List.ne_nil_of_mem hbt)
      rw [List.filter_cons, if_pos (by simp [hxb])]
      simp only [List.length_cons, ih hndt hbt]
      omega

lemma length_filter_pair (l : List Card) (a b : Card) (hnd : l.Nodup)
    (ha : a ∈ l) (hb : b ∈ l) (hne : a ≠ b) :
    (l.filter fun c => decide (c ≠ a) && decide (c ≠ b)).length = l.length - 2 := by
  induction l with
  | nil => simp at ha
  | cons x t ih =>
    obtain ⟨hx, hndt⟩ := List.nodup_cons.mp hnd
    by_cases hxa : x = a
    · subst hxa
      have hbt : b ∈ t := mem_of_mem_cons_ne hb (Ne.symm hne)
      have hcong : t.filter (fun c => decide (c ≠ x) && decide (c ≠ b)) =
          t.filter (fun c => decide (c ≠ b)) := by
        apply List.filter_congr
        intro c hc
        have hcx : c ≠ x := fun he => hx (he ▸ hc)
        simp [hcx]
      have hpos : 0 < t.length := List.length_pos.mpr (List.ne_nil_of_mem hbt)
      rw [List.filter_cons, if_neg (by simp), hcong, length_filter_ne t b hndt hbt]
      simp only [List.length_cons]
      omega
    · by_cases hxb : x = b
      · subst hxb
        have hat : a ∈ t := mem_of_mem_cons_ne ha hne
        have hcong : t.filter (fun c => decide (c ≠ a) && decide (c ≠ x)) =
            t.filter (fun c => decide (c ≠ a)) := by
          apply List.filter_congr
          intro c hc
          have hcx : c ≠ x := fun he => hx (he ▸ hc)
          simp [hcx]
        have hpos : 0 < t.length := List.length_pos.mpr (List.ne_nil_of_mem hat)
        rw [List.filter_cons, if_neg (by simp), hcong, length_filter_ne t a hndt hat]
        simp only [List.length_cons]
        omega
      · have hat : a ∈ t := mem_of_mem_cons_ne ha (fun e => hxa e.symm)
        have hbt : b ∈ t := mem_of_mem_cons_ne hb (fun e => hxb e.symm)
        have h2 : 2 ≤ t.length := two_le_length_of_mem hat hbt hne
        rw [List.filter_cons, if_pos (by simp [hxa, hxb])]
        simp only [List.length_cons, ih hndt hat hbt]
        omega

/-- The two removed cards together with the remainder are a permutation of
the hand. -/
lemma cons_cons_filter_perm (l : List Card) (a b : Card) (hnd : l.Nodup)
    (ha : a ∈ l) (hb : b ∈ l) (hne : a ≠ b) :
    (a :: b :: (l.filter fun c => decide (c ≠ a) && decide (c ≠ b))).Perm l := by
  have hfnd : (l.filter fun c => decide (c ≠ a) && decide (c ≠ b)).Nodup :=
    List.Nodup.filter _ hnd
  have hanf : a ∉ l.filter fun c => decide (c ≠ a) && decide (c ≠ b) := by
    intro hmem
    have := (List.mem_filter.mp hmem).2
    simp at this
  have hbnf : b ∉ l.filter fun c => decide (c ≠ a) && decide (c ≠ b) := by
    intro hmem
    have := (List.mem_filter.mp hmem).2
    simp at this
  apply (List.perm_ext_iff_of_nodup ?_ hnd).mpr
  · intro c
    constructor
    · intro hc
      rcases List.mem_cons.mp hc with rfl | hc
      · exact ha
      rcases List.mem_cons.mp hc with rfl | hc
      · exact hb
      · exact (List.mem_filter.mp hc).1
    · intro hc
      by_cases hca : c = a
      · exact hca ▸ List.mem_cons_self _ _
      by_cases hcb : c = b
      · subst hcb
        exact List.mem_cons_of_mem _ (List.mem_cons_self _ _)
      · refine List.mem_cons_of_mem _ (List.mem_cons_of_mem _ ?_)
        exact List.mem_filter.mpr ⟨hc, by simp [hca, hcb]⟩
  · refine List.nodup_cons.mpr ⟨?_, List.nodup_cons.mpr ⟨hbnf, hfnd⟩⟩
    intro hmem
    rcases List.mem_cons.mp hmem with h | h
    · exact hne h
    · exact hanf h

/-! ## The pigeonhole step -/

lemma length_eq_sum_suitCards (h : List Card) :
    h.length = (suitCards h Suit.clubs).length + (suitCards h Suit.diamonds).length
      + (suitCards h Suit.hearts).length + (suitCards h Suit.spades).length := by
  induction h with
  | nil => simp [suitCards]
  | cons c t ih =>
    cases hs : c.suit <;>
      simp only [suitCards, List.filter_cons, hs, List.length_cons] at * <;>
      simp <;> omega

lemma findPairSuit_exists (h : List Card) (hlen : h.length = 5) :
    ∃ s, findPairSuit h = some s ∧ 2 ≤ (suitCards h s).length := by
  rcases hfind : findPairSuit h with _ | s
  · exfalso
    have hall := List.find?_eq_none.mp hfind
    have hle : ∀ s, s ∈ SUITS → (suitCards h s).length ≤ 1 := by
      intro s hs
      have := hall s hs
      simp only [decide_eq_true_eq] at this
      omega
    have h1 := hle Suit.clubs (by simp [SUITS])
    have h2 := hle Suit.diamonds (by simp [SUITS])
    have h3 := hle Suit.hearts (by simp [SUITS])
    have h4 := hle Suit.spades (by simp [SUITS])
    have := length_eq_sum_suitCards h
    omega
  · refine ⟨s, rfl, ?_⟩
    have := List.find?_some hfind
    simpa using this

/-! ## Lemmas about `decode` -/

lemma decode_eq (ind L M H c1 c2 c3 : Card) (rest1 rest2 : List Card)
    (hs : sortByRank (c1 :: c2 :: c3 :: rest2) = L :: M :: H :: rest1) :
    decode ind (c1 :: c2 :: c3 :: rest2) =
      some ⟨ind.suit, (ind.value + decodeOffset c1 c2 c3 L M H - 1) % 13 + 1⟩ := by
  unfold decode
  rw [hs]

/-- The permutation-matching chain never falls through to the default case
when one of the six patterns holds: it reports an offset in `[1, 6]`. -/
lemma decodeOffset_mem_of_pattern (c1 c2 c3 L M H : Card)
    (h : (c1 = L ∧ c2 = M ∧ c3 = H) ∨ (c1 = L ∧ c2 = H ∧ c3 = M) ∨
         (c1 = M ∧ c2 = L ∧ c3 = H) ∨ (c1 = M ∧ c2 = H ∧ c3 = L) ∨
         (c1 = H ∧ c2 = L ∧ c3 = M) ∨ (c1 = H ∧ c2 = M ∧ c3 = L)) :
    1 ≤ decodeOffset c1 c2 c3 L M H ∧ decodeOffset c1 c2 c3 L M H ≤ 6 := by
  unfold decodeOffset
  split_ifs with p1 p2 p3 p4 p5 p6
  · omega
  · omega
  · omega
  · omega
  · omega
  · omega
  · rcases h with h | h | h | h | h | h
    exacts [absurd h p1, absurd h p2, absurd h p3, absurd h p4, absurd h p5, absurd h p6]

/-- Sorting a three-card list produces one of its six arrangements, so one
of the six match patterns always fires. -/
lemma sortByRank_three_pattern (c1 c2 c3 L M H : Card)
    (hs : sortByRank [c1, c2, c3] = [L, M, H]) :
    (c1 = L ∧ c2 = M ∧ c3 = H) ∨ (c1 = L ∧ c2 = H ∧ c3 = M) ∨
    (c1 = M ∧ c2 = L ∧ c3 = H) ∨ (c1 = M ∧ c2 = H ∧ c3 = L) ∨
    (c1 = H ∧ c2 = L ∧ c3 = M) ∨ (c1 = H ∧ c2 = M ∧ c3 = L) := by
  by_cases h23 : getCardRank c2 ≤ getCardRank c3
  · by_cases h12 : getCardRank c1 ≤ getCardRank c2
    · simp only [sortByRank, insertByRank, if_pos h23, if_pos h12, List.cons.injEq,
        and_true] at hs
      obtain ⟨rfl, rfl, rfl⟩ := hs
      exact Or.inl ⟨rfl, rfl, rfl⟩
    · by_cases h13 : getCardRank c1 ≤ getCardRank c3
      · simp only [sortByRank, insertByRank, if_pos h23, if_neg h12, if_pos h13,
          List.cons.injEq, and_true] at hs
        obtain ⟨rfl, rfl, rfl⟩ := hs
        exact Or.inr (Or.inr (Or.inl ⟨rfl, rfl, rfl⟩))
      · simp only [sortByRank, insertByRank, if_pos h23, if_neg h12, if_neg h13,
          List.cons.injEq, and_true] at hs
        obtain ⟨rfl, rfl, rfl⟩ := hs
        exact Or.inr (Or.inr (Or.inr (Or.inr (Or.inl ⟨rfl, rfl, rfl⟩))))
  · by_cases h13 : getCardRank c1 ≤ getCardRank c3
    · simp only [sortByRank, insertByRank, if_neg h23, if_pos h13, List.cons.injEq,
        and_true] at hs
      obtain ⟨rfl, rfl, rfl⟩ := hs
      exact Or.inr (Or.inl ⟨rfl, rfl, rfl⟩)
    · by_cases h12 : getCardRank c1 ≤ getCardRank c2
      · simp only [sortByRank, insertByRank, if_neg h23, if_neg h13, if_pos h12,
          List.cons.injEq, and_true] at hs
        obtain ⟨rfl, rfl, rfl⟩ := hs
        exact Or.inr (Or.inr (Or.inr (Or.inl ⟨rfl, rfl, rfl⟩)))
      · simp only [sortByRank, insertByRank, if_neg h23, if_neg h13, if_neg h12,
          List.cons.injEq, and_true] at hs
        obtain ⟨rfl, rfl, rfl⟩ := hs
        exact Or.inr (Or.inr (Or.inr (Or.inr (Or.inr ⟨rfl, rfl, rfl⟩))))

/-- Sorting any of the six encoder arrangements of a strictly rank-ascending
triple recovers the ascending triple. -/
lemma sortByRank_permute (low mid high : Card)
    (h1 : getCardRank low < getCardRank mid)
    (h2 : getCardRank mid < getCardRank high) (k : Nat) :
    sortByRank (permute k low mid high) = [low, mid, high] := by
  have a1 : getCardRank low ≤ getCardRank mid := le_of_lt h1
  have a2 : getCardRank mid ≤ getCardRank high := le_of_lt h2
  have a3 : getCardRank low ≤ getCardRank high := by omega
  have n1 : ¬ getCardRank mid ≤ getCardRank low := by omega
  have n2 : ¬ getCardRank high ≤ getCardRank mid := by omega
  have n3 : ¬ getCardRank high ≤ getCardRank low := by omega
  rcases k with _ | _ | _ | _ | _ | _ | _ | n <;>
    simp [permute, sortByRank, insertByRank, a1, a2, a3, n1, n2, n3]

/-- Decoding an encoder arrangement of a strictly ascending triple recovers
the offset `k` and yields the indicator-suit card `k` clock steps on. -/
lemma decode_permute (ind low mid high : Card)
    (h1 : getCardRank low < getCardRank mid)
    (h2 : getCardRank mid < getCardRank high)
    (k : Nat) (hk1 : 1 ≤ k) (hk2 : k ≤ 6) :
    decode ind (permute k low mid high) =
      some ⟨ind.suit, (ind.value + k - 1) % 13 + 1⟩ := by
  have e1 : low ≠ mid := ne_of_rank_lt h1
  have e2 : mid ≠ high := ne_of_rank_lt h2
  have e3 : low ≠ high := ne_of_rank_lt (lt_trans h1 h2)
  have hs := sortByRank_permute low mid high h1 h2
  interval_cases k
  · rw [show permute 1 low mid high = [low, mid, high] from rfl,
      decode_eq ind low mid high low mid high [] [] (by simpa [permute] using hs 1)]
    simp [decodeOffset]
  · rw [show permute 2 low mid high = [low, high, mid] from rfl,
      decode_eq ind low mid high low high mid [] [] (by simpa [permute] using hs 2)]
    simp [decodeOffset, e1, e2, e3, Ne.symm e1, Ne.symm e2, Ne.symm e3]
  · rw [show permute 3 low mid high = [mid, low, high] from rfl,
      decode_eq ind low mid high mid low high [] [] (by simpa [permute] using hs 3)]
    simp [decodeOffset, e1, e2, e3, Ne.symm e1, Ne.symm e2, Ne.symm e3]
  · rw [show permute 4 low mid high = [mid, high, low] from rfl,
      decode_eq ind low mid high mid high low [] [] (by simpa [permute] using hs 4)]
    simp [decodeOffset, e1, e2, e3, Ne.symm e1, Ne.symm e2, Ne.symm e3]
  · rw [show permute 5 low mid high = [high, low, mid] from rfl,
      decode_eq ind low mid high high low mid [] [] (by simpa [permute] using hs 5)]
    simp [decodeOffset, e1, e2, e3, Ne.symm e1, Ne.symm e2, Ne.symm e3]
  · rw [show permute 6 low mid high = [high, mid, low] from rfl,
      decode_eq ind low mid high high mid low [] [] (by simpa [permute] using hs 6)]
    simp [decodeOffset, e1, e2, e3, Ne.symm e1, Ne.symm e2, Ne.symm e3]

/-! ## The offset arithmetic -/

/-- For two distinct values on the 13-clock, either the forward distance is
in `[1, 6]` or the backward one is, and stepping the chosen anchor by the
chosen distance lands on the other value. -/
lemma clockDist_branch (v1 v2 : Nat) (h1 : 1 ≤ v1) (h2 : v1 ≤ 13)
    (h3 : 1 ≤ v2) (h4 : v2 ≤ 13) (hne : v1 ≠ v2) :
    (0 < clockDist v1 v2 ∧ clockDist v1 v2 ≤ 6 ∧
      (v1 + clockDist v1 v2 - 1) % 13 + 1 = v2) ∨
    (¬(0 < clockDist v1 v2 ∧ clockDist v1 v2 ≤ 6) ∧
      0 < clockDist v2 v1 ∧ clockDist v2 v1 ≤ 6 ∧
      (v2 + clockDist v2 v1 - 1) % 13 + 1 = v1) := by
  unfold clockDist
  omega

/-! ## The encoder master lemma -/

lemma permute_perm (k : Nat) (a b c : Card) : (permute k a b c).Perm [a, b, c] := by
  rcases k with _ | _ | _ | _ | _ | _ | _ | n
  · exact List.Perm.refl _
  · exact List.Perm.refl _
  · exact List.Perm.cons a (List.Perm.swap b c [])
  · exact List.Perm.swap a b [c]
  · exact (List.Perm.cons b (List.Perm.swap a c [])).trans (List.Perm.swap a b [c])
  · exact (List.Perm.swap a c [b]).trans (List.Perm.cons a (List.Perm.swap b c []))
  · exact (List.Perm.cons c (List.Perm.swap a b [])).trans
      ((List.Perm.swap a c [b]).trans (List.Perm.cons a (List.Perm.swap b c [])))
  · exact List.Perm.refl _

/-- Steps 3-4 of the encoder on a valid hand: the remaining three cards sort
into a strictly ascending triple and the returned code cards are its
`permute k` arrangement. -/
lemma mkArrangement_spec (h : List Card) (hv : ValidHand h) (ind hid : Card)
    (hmi : ind ∈ h) (hmh : hid ∈ h) (hne : ind ≠ hid) (k : Nat) :
    ∃ low mid high,
      mkArrangement h ind hid k = some ⟨ind, hid, permute k low mid high⟩ ∧
      getCardRank low < getCardRank mid ∧ getCardRank mid < getCardRank high ∧
      (permute k low mid high).Perm
        (h.filter fun c => decide (c ≠ ind) && decide (c ≠ hid)) := by
  obtain ⟨hlen, hnd, hval⟩ := hv
  have hremlen : (h.filter fun c => decide (c ≠ ind) && decide (c ≠ hid)).length = 3 := by
    rw [length_filter_pair h ind hid hnd hmi hmh hne, hlen]
  have hremnd : (h.filter fun c => decide (c ≠ ind) && decide (c ≠ hid)).Nodup :=
    List.Nodup.filter _ hnd
  obtain ⟨x, y, z, hrem⟩ := List.length_eq_three.mp hremlen
  have hsortlen : (sortByRank (h.filter fun c => decide (c ≠ ind) && decide (c ≠ hid))).length = 3 := by
    rw [sortByRank_length, hremlen]
  obtain ⟨low, mid, high, hsort⟩ := List.length_eq_three.mp hsortlen
  have hsperm : ([low, mid, high] : List Card).Perm
      (h.filter fun c => decide (c ≠ ind) && decide (c ≠ hid)) :=
    hsort ▸ sortByRank_perm _
  have hlmh_nd : ([low, mid, high] : List Card).Nodup := hsperm.nodup_iff.mpr hremnd
  have hmlow : low ∈ h := (List.mem_filter.mp (hsperm.mem_iff.mp (by simp))).1
  have hmmid : mid ∈ h := (List.mem_filter.mp (hsperm.mem_iff.mp (by simp))).1
  have hmhigh : high ∈ h := (List.mem_filter.mp (hsperm.mem_iff.mp (by simp))).1
  have hsorted : getCardRank low ≤ getCardRank mid ∧ getCardRank mid ≤ getCardRank high := by
    apply sortByRank_three_sorted x y z
    rw [← hrem, hsort]
  have hnelm : low ≠ mid := by
    intro he
    simp [he] at hlmh_nd
  have hnemh : mid ≠ high := by
    intro he
    simp [he] at hlmh_nd
  have hlt1 : getCardRank low < getCardRank mid :=
    lt_of_le_of_ne hsorted.1 (getCardRank_ne low mid (hval low hmlow) (hval mid hmmid) hnelm)
  have hlt2 : getCardRank mid < getCardRank high :=
    lt_of_le_of_ne hsorted.2 (getCardRank_ne mid high (hval mid hmmid) (hval high hmhigh) hnemh)
  refine ⟨low, mid, high, ?_, hlt1, hlt2, (permute_perm k low mid high).trans hsperm⟩
  unfold mkArrangement
  rw [hsort]

/-- The encoder on a valid hand: full characterisation of the arrangement it
returns. -/
lemma encode_spec (h : List Card) (hv : ValidHand h) :
    ∃ ind hid low mid high k,
      getFitchCheneyArrangement h = some ⟨ind, hid, permute k low mid high⟩ ∧
      ind ∈ h ∧ hid ∈ h ∧ ind ≠ hid ∧ ind.suit = hid.suit ∧
      1 ≤ k ∧ k ≤ 6 ∧ (ind.value + k - 1) % 13 + 1 = hid.value ∧
      getCardRank low < getCardRank mid ∧ getCardRank mid < getCardRank high ∧
      (permute k low mid high).Perm
        (h.filter fun c => decide (c ≠ ind) && decide (c ≠ hid)) := by
  obtain ⟨hlen, hnd, hval⟩ := hv
  obtain ⟨s, hfind, hcount⟩ := findPairSuit_exists h hlen
  rcases hsc : suitCards h s with _ | ⟨c1, t⟩
  · rw [hsc] at hcount
    simp at hcount
  rcases t with _ | ⟨c2, rest⟩
  · rw [hsc] at hcount
    simp at hcount
  have hmem1 : c1 ∈ suitCards h s := by
    rw [hsc]
    exact List.mem_cons_self _ _
  have hmem2 : c2 ∈ suitCards h s := by
    rw [hsc]
    exact List.mem_cons_of_mem _ (List.mem_cons_self _ _)
  have hc1 : c1 ∈ h := (List.mem_filter.mp hmem1).1
  have hc2 : c2 ∈ h := (List.mem_filter.mp hmem2).1
  have hs1 : c1.suit = s := by
    have := (List.mem_filter.mp hmem1).2
    simpa using this
  have hs2 : c2.suit = s := by
    have := (List.mem_filter.mp hmem2).2
    simpa using this
  have hscnd : (suitCards h s).Nodup := List.Nodup.filter _ hnd
  have hne : c1 ≠ c2 := by
    rw [hsc] at hscnd
    obtain ⟨hn1, _⟩ := List.nodup_cons.mp hscnd
    intro he
    exact hn1 (he ▸ List.mem_cons_self _ _)
  have hvne : c1.value ≠ c2.value := by
    intro he
    apply hne
    obtain ⟨sa, va⟩ := c1
    obtain ⟨sb, vb⟩ := c2
    simp only at hs1 hs2 he
    rw [hs1.trans hs2.symm, he]
  obtain ⟨hv11, hv12⟩ := hval c1 hc1
  obtain ⟨hv21, hv22⟩ := hval c2 hc2
  have hunfold : getFitchCheneyArrangement h = arrangeFromPair h c1 c2 := by
    unfold getFitchCheneyArrangement
    split
    · next heq =>
        rw [heq] at hfind
        exact absurd hfind (by simp)
    · next s' heq =>
        rw [hfind] at heq
        injection heq with heq
        subst heq
        split
        · next a b tl heq2 =>
            rw [hsc] at heq2
            injection heq2 with e1 e2
            injection e2 with e2 e3
            rw [e1, e2]
        · next heq2 => exact absurd hsc (by intro hh; exact heq2 c1 c2 rest hh)
  rcases clockDist_branch c1.value c2.value hv11 hv12 hv21 hv22 hvne with
    ⟨hb1, hb2, hinv⟩ | ⟨hb0, hb1, hb2, hinv⟩
  · obtain ⟨low, mid, high, hmk, hr1, hr2, hperm⟩ :=
      mkArrangement_spec h ⟨hlen, hnd, hval⟩ c1 c2 hc1 hc2 hne
        (clockDist c1.value c2.value)
    refine ⟨c1, c2, low, mid, high, clockDist c1.value c2.value, ?_, hc1, hc2, hne,
      hs1.trans hs2.symm, hb1, hb2, hinv, hr1, hr2, hperm⟩
    rw [hunfold]
    unfold arrangeFromPair
    rw [if_pos ⟨hb1, hb2⟩]
    exact hmk
  · obtain ⟨low, mid, high, hmk, hr1, hr2, hperm⟩ :=
      mkArrangement_spec h ⟨hlen, hnd, hval⟩ c2 c1 hc2 hc1 (Ne.symm hne)
        (clockDist c2.value c1.value)
    refine ⟨c2, c1, low, mid, high, clockDist c2.value c1.value, ?_, hc2, hc1,
      Ne.symm hne, hs2.trans hs1.symm, hb1, hb2, hinv, hr1, hr2, hperm⟩
    rw [hunfold]
    unfold arrangeFromPair
    rw [if_neg hb0]
    exact hmk

/-! ## The claims -/

/-- Claim C1: for every valid hand of 5 pairwise-distinct cards, decoding
the encoder output round-trips — `decode` applied to the encoder's
indicator and code cards returns a card whose suit and rank both equal
those of the encoder's hidden card. -/
theorem claim1_roundtrip (h : List Card) (hv : ValidHand h) :
    ∃ arr, getFitchCheneyArrangement h = some arr ∧
      ∃ p, decode arr.indicator arr.codeCards = some p ∧
        p.suit = arr.hidden.suit ∧ p.value = arr.hidden.value := by
  obtain ⟨ind, hid, low, mid, high, k, henc, _, _, _, hsuit, hk1, hk2, hinv, hr1, hr2, _⟩ :=
    encode_spec h hv
  refine ⟨⟨ind, hid, permute k low mid high⟩, henc, ?_⟩
  show ∃ p, decode ind (permute k low mid high) = some p ∧ p.suit = hid.suit ∧ p.value = hid.value
  refine ⟨⟨ind.suit, (ind.value + k - 1) % 13 + 1⟩,
    decode_permute ind low mid high hr1 hr2 k hk1 hk2, hsuit, hinv⟩

/-- Claim C1 witness at a concrete valid hand. -/
theorem claim1_roundtrip_witness :
    ValidHand [⟨Suit.spades, 1⟩, ⟨Suit.hearts, 4⟩, ⟨Suit.spades, 5⟩,
      ⟨Suit.diamonds, 11⟩, ⟨Suit.clubs, 7⟩] ∧
    ∃ arr, getFitchCheneyArrangement [⟨Suit.spades, 1⟩, ⟨Suit.hearts, 4⟩,
        ⟨Suit.spades, 5⟩, ⟨Suit.diamonds, 11⟩, ⟨Suit.clubs, 7⟩] = some arr ∧
      ∃ p, decode arr.indicator arr.codeCards = some p ∧
        p.suit = arr.hidden.suit ∧ p.value = arr.hidden.value :=
  ⟨by decide, claim1_roundtrip _ (by decide)⟩

/-- Claim C2: for every valid hand, the indicator, the three code cards and
the hidden card returned by the encoder are exactly the hand as a multiset
(a list permutation). -/
theorem claim2_partition (h : List Card) (hv : ValidHand h) :
    ∃ arr, getFitchCheneyArrangement h = some arr ∧
      (arr.indicator :: (arr.codeCards ++ [arr.hidden])).Perm h := by
  obtain ⟨ind, hid, low, mid, high, k, henc, hmi, hmh, hne, _, _, _, _, _, _, hperm⟩ :=
    encode_spec h hv
  refine ⟨⟨ind, hid, permute k low mid high⟩, henc, ?_⟩
  show (ind :: (permute k low mid high ++ [hid])).Perm h
  have h1 : (permute k low mid high ++ [hid]).Perm (hid :: permute k low mid high) :=
    List.perm_append_singleton hid _
  have h2 : (hid :: permute k low mid high).Perm
      (hid :: h.filter fun c => decide (c ≠ ind) && decide (c ≠ hid)) :=
    hperm.cons hid
  have h3 := cons_cons_filter_perm h ind hid hv.2.1 hmi hmh hne
  exact ((h1.cons ind).trans (h2.cons ind)).trans h3

/-- Claim C2 witness at a concrete valid hand. -/
theorem claim2_partition_witness :
    ValidHand [⟨Suit.hearts, 10⟩, ⟨Suit.hearts, 3⟩, ⟨Suit.clubs, 12⟩,
      ⟨Suit.diamonds, 2⟩, ⟨Suit.spades, 6⟩] ∧
    ∃ arr, getFitchCheneyArrangement [⟨Suit.hearts, 10⟩, ⟨Suit.hearts, 3⟩,
        ⟨Suit.clubs, 12⟩, ⟨Suit.diamonds, 2⟩, ⟨Suit.spades, 6⟩] = some arr ∧
      (arr.indicator :: (arr.codeCards ++ [arr.hidden])).Perm
        [⟨Suit.hearts, 10⟩, ⟨Suit.hearts, 3⟩, ⟨Suit.clubs, 12⟩,
          ⟨Suit.diamonds, 2⟩, ⟨Suit.spades, 6⟩] :=
  ⟨by decide, claim2_partition _ (by decide)⟩

/-- Claim C3: for the pair the encoder selects from a valid hand, either
the clockwise distance `dist1to2` is already in `[1, 6]`, or the
else-branch distance `dist2to1` is in `[1, 6]`; consequently the offset
the encoder computes — `dist1to2` in the then-branch, `dist2to1` in the
else-branch — always lies in `[1, 6]` and the `switch` default arm is
unreachable. -/
theorem claim3_offset_range (h : List Card) (hv : ValidHand h) (s : Suit)
    (c1 c2 : Card) (rest : List Card)
    (_hfind : findPairSuit h = some s) (hsc : suitCards h s = c1 :: c2 :: rest) :
    ((0 < clockDist c1.value c2.value ∧ clockDist c1.value c2.value ≤ 6) ∨
      (¬(0 < clockDist c1.value c2.value ∧ clockDist c1.value c2.value ≤ 6) ∧
        0 < clockDist c2.value c1.value ∧ clockDist c2.value c1.value ≤ 6)) ∧
    (1 ≤ (if 0 < clockDist c1.value c2.value ∧ clockDist c1.value c2.value ≤ 6
        then clockDist c1.value c2.value else clockDist c2.value c1.value) ∧
      (if 0 < clockDist c1.value c2.value ∧ clockDist c1.value c2.value ≤ 6
        then clockDist c1.value c2.value else clockDist c2.value c1.value) ≤ 6) := by
  obtain ⟨hlen, hnd, hval⟩ := hv
  have hmem1 : c1 ∈ suitCards h s := by
    rw [hsc]
    exact List.mem_cons_self _ _
  have hmem2 : c2 ∈ suitCards h s := by
    rw [hsc]
    exact List.mem_cons_of_mem _ (List.mem_cons_self _ _)
  have hc1 : c1 ∈ h := (List.mem_filter.mp hmem1).1
  have hc2 : c2 ∈ h := (List.mem_filter.mp hmem2).1
  have hs1 : c1.suit = s := by
    have := (List.mem_filter.mp hmem1).2
    simpa using this
  have hs2 : c2.suit = s := by
    have := (List.mem_filter.mp hmem2).2
    simpa using this
  have hscnd : (suitCards h s).Nodup := List.Nodup.filter _ hnd
  have hne : c1 ≠ c2 := by
    rw [hsc] at hscnd
    obtain ⟨hn1, _⟩ := List.nodup_cons.mp hscnd
    intro he
    exact hn1 (he ▸ List.mem_cons_self _ _)
  have hvne : c1.value ≠ c2.value := by
    intro he
    apply hne
    obtain ⟨sa, va⟩ := c1
    obtain ⟨sb, vb⟩ := c2
    simp only at hs1 hs2 he
    rw [hs1.trans hs2.symm, he]
  obtain ⟨hv11, hv12⟩ := hval c1 hc1
  obtain ⟨hv21, hv22⟩ := hval c2 hc2
  rcases clockDist_branch c1.value c2.value hv11 hv12 hv21 hv22 hvne with
    ⟨hb1, hb2, _⟩ | ⟨hb0, hb1, hb2, _⟩
  · exact ⟨Or.inl ⟨hb1, hb2⟩, by rw [if_pos ⟨hb1, hb2⟩]; omega⟩
  · exact ⟨Or.inr ⟨hb0, hb1, hb2⟩, by rw [if_neg hb0]; omega⟩

/-- Claim C3 witness at a concrete valid hand exercising the else-branch
(`dist1to2 = 7`, `dist2to1 = 6`). -/
theorem claim3_offset_range_witness :
    ValidHand [⟨Suit.spades, 1⟩, ⟨Suit.spades, 8⟩, ⟨Suit.hearts, 2⟩,
      ⟨Suit.clubs, 5⟩, ⟨Suit.diamonds, 9⟩] ∧
    (((0 < clockDist 1 8 ∧ clockDist 1 8 ≤ 6) ∨
      (¬(0 < clockDist 1 8 ∧ clockDist 1 8 ≤ 6) ∧
        0 < clockDist 8 1 ∧ clockDist 8 1 ≤ 6)) ∧
    (1 ≤ (if 0 < clockDist 1 8 ∧ clockDist 1 8 ≤ 6
        then clockDist 1 8 else clockDist 8 1) ∧
      (if 0 < clockDist 1 8 ∧ clockDist 1 8 ≤ 6
        then clockDist 1 8 else clockDist 8 1) ≤ 6)) :=
  ⟨by decide, claim3_offset_range
    [⟨Suit.spades, 1⟩, ⟨Suit.spades, 8⟩, ⟨Suit.hearts, 2⟩, ⟨Suit.clubs, 5⟩,
      ⟨Suit.diamonds, 9⟩] (by decide) Suit.spades ⟨Suit.spades, 1⟩
    ⟨Suit.spades, 8⟩ [] (by decide) (by decide)⟩

/-- Claim C4: for every valid hand, the indicator and the hidden card of
the encoder output share a suit. -/
theorem claim4_suit_sharing (h : List Card) (hv : ValidHand h) (arr : Arrangement)
    (harr : getFitchCheneyArrangement h = some arr) :
    arr.indicator.suit = arr.hidden.suit := by
  obtain ⟨ind, hid, low, mid, high, k, henc, _, _, _, hsuit, _⟩ := encode_spec h hv
  rw [harr] at henc
  injection henc with henc
  rw [henc]
  exact hsuit

/-- Claim C4 witness at a concrete valid hand. -/
theorem claim4_suit_sharing_witness :
    ∃ arr, getFitchCheneyArrangement [⟨Suit.diamonds, 4⟩, ⟨Suit.clubs, 13⟩,
        ⟨Suit.diamonds, 12⟩, ⟨Suit.spades, 2⟩, ⟨Suit.hearts, 9⟩] = some arr ∧
      arr.indicator.suit = arr.hidden.suit := by
  refine ⟨⟨⟨Suit.diamonds, 12⟩, ⟨Suit.diamonds, 4⟩,
    [⟨Suit.clubs, 13⟩, ⟨Suit.spades, 2⟩, ⟨Suit.hearts, 9⟩]⟩, by decide, ?_⟩
  exact claim4_suit_sharing [⟨Suit.diamonds, 4⟩, ⟨Suit.clubs, 13⟩,
    ⟨Suit.diamonds, 12⟩, ⟨Suit.spades, 2⟩, ⟨Suit.hearts, 9⟩] (by decide) _ (by decide)

/-- Claim C5 (amended): the App.tsx encoder invoked with a hand of any
count other than 5 fails synchronously with the hand-size error and no
partial output. -/
theorem claim5_hand_size (hand : List Card) (hlen : hand.length ≠ 5) :
    getFitchCheneyArrangementApp hand = Except.error "Need exactly 5 cards" := by
  unfold getFitchCheneyArrangementApp
  rw [if_neg hlen]

/-- Claim C5 witness at a concrete 4-card hand. -/
theorem claim5_hand_size_witness :
    ([⟨Suit.clubs, 1⟩, ⟨Suit.clubs, 2⟩, ⟨Suit.hearts, 3⟩,
        ⟨Suit.spades, 4⟩] : List Card).length ≠ 5 ∧
    getFitchCheneyArrangementApp [⟨Suit.clubs, 1⟩, ⟨Suit.clubs, 2⟩,
      ⟨Suit.hearts, 3⟩, ⟨Suit.spades, 4⟩] = Except.error "Need exactly 5 cards" :=
  ⟨by decide, claim5_hand_size _ (by decide)⟩

/-- Claim C5 counterexample: a 5-card hand containing two cards that share
both suit and rank (Clubs-3 twice) is NOT rejected — no `DuplicateCard`
check exists and the encoder returns an arrangement (here with the
duplicate as both indicator and hidden card). -/
theorem claim5_counterexample :
    getFitchCheneyArrangementApp [⟨Suit.clubs, 3⟩, ⟨Suit.clubs, 3⟩,
        ⟨Suit.hearts, 2⟩, ⟨Suit.spades, 13⟩, ⟨Suit.diamonds, 7⟩] =
      Except.ok (some ⟨⟨Suit.clubs, 3⟩, ⟨Suit.clubs, 3⟩,
        [⟨Suit.hearts, 2⟩, ⟨Suit.diamonds, 7⟩, ⟨Suit.spades, 13⟩]⟩) := by
  rfl

/-- Claim C6 (amended): `decode` performs no validation and never fails
with `InvalidPermutation`: for any indicator and any code-card list of at
least three cards — including lists overlapping the indicator or holding
duplicates — it returns a reconstructed card. -/
theorem claim6_no_validation (ind c1 c2 c3 : Card) (rest : List Card) :
    (decode ind (c1 :: c2 :: c3 :: rest)).isSome = true := by
  have h3 : 3 ≤ (sortByRank (c1 :: c2 :: c3 :: rest)).length := by
    rw [sortByRank_length]
    simp
  obtain ⟨L, M, H, t, hs⟩ : ∃ L M H t,
      sortByRank (c1 :: c2 :: c3 :: rest) = L :: M :: H :: t := by
    rcases hsr : sortByRank (c1 :: c2 :: c3 :: rest) with _ | ⟨L, t1⟩
    · rw [hsr] at h3
      simp at h3
    rcases t1 with _ | ⟨M, t2⟩
    · rw [hsr] at h3
      simp at h3
    rcases t2 with _ | ⟨H, t3⟩
    · rw [hsr] at h3
      simp at h3
    exact ⟨L, M, H, t3, rfl⟩
  rw [decode_eq ind L M H c1 c2 c3 t rest hs]
  rfl

/-- Claim C6 counterexample: `decode` invoked with a code-card triple that
overlaps the indicator (Clubs-3 appears as both) raises no error and
returns a card. -/
theorem claim6_counterexample :
    decode ⟨Suit.clubs, 3⟩ [⟨Suit.clubs, 3⟩, ⟨Suit.hearts, 2⟩,
      ⟨Suit.diamonds, 7⟩] = some ⟨Suit.clubs, 6⟩ := by
  decide

/-- Claim C7: the card key `(rank - 1) * 4 + suitPriority` is injective on
the 52 standard cards, the induced strict order has rank dominating with
suit breaking rank ties, and the suit priority is strictly increasing in
the order clubs, diamonds, hearts, spades. -/
theorem claim7_key_total_order :
    (∀ a b : Card, ValidCard a → ValidCard b →
      getCardRank a = getCardRank b → a = b) ∧
    (∀ a b : Card, ValidCard a → ValidCard b →
      (getCardRank a < getCardRank b ↔
        (a.value < b.value ∨ (a.value = b.value ∧
          SUIT_ORDER a.suit < SUIT_ORDER b.suit)))) ∧
    (SUIT_ORDER Suit.clubs < SUIT_ORDER Suit.diamonds ∧
      SUIT_ORDER Suit.diamonds < SUIT_ORDER Suit.hearts ∧
      SUIT_ORDER Suit.hearts < SUIT_ORDER Suit.spades) := by
  refine ⟨?_, ?_, by decide⟩
  · intro a b ha hb heq
    by_contra hne
    exact getCardRank_ne a b ha hb hne heq
  · intro a b ha hb
    obtain ⟨ha1, ha2⟩ := ha
    obtain ⟨hb1, hb2⟩ := hb
    obtain ⟨sa, va⟩ := a
    obtain ⟨sb, vb⟩ := b
    simp only [getCardRank] at *
    cases sa <;> cases sb <;> simp [SUIT_ORDER] <;> omega

/-- Claim C7 witness: a concrete rank tie broken by suit priority. -/
theorem claim7_key_total_order_witness :
    getCardRank ⟨Suit.clubs, 4⟩ < getCardRank ⟨Suit.diamonds, 4⟩ :=
  (claim7_key_total_order.2.1 ⟨Suit.clubs, 4⟩ ⟨Suit.diamonds, 4⟩
    (by decide) (by decide)).mpr (by decide)

/-- Claim C8: the exhaustive exemplar — for the hand (Clubs-3, Clubs-9,
Hearts-2, Spades-King, Diamonds-7) the distances are d(3→9)=6 and
d(9→3)=7, the encoder returns indicator Clubs-3, hidden Clubs-9 and code
cards (Spades-King, Diamonds-7, Hearts-2), and decoding that triple with
indicator Clubs-3 yields Clubs-9. -/
theorem claim8_exemplar :
    clockDist 3 9 = 6 ∧ clockDist 9 3 = 7 ∧
    getFitchCheneyArrangement [⟨Suit.clubs, 3⟩, ⟨Suit.clubs, 9⟩,
        ⟨Suit.hearts, 2⟩, ⟨Suit.spades, 13⟩, ⟨Suit.diamonds, 7⟩] =
      some ⟨⟨Suit.clubs, 3⟩, ⟨Suit.clubs, 9⟩,
        [⟨Suit.spades, 13⟩, ⟨Suit.diamonds, 7⟩, ⟨Suit.hearts, 2⟩]⟩ ∧
    decode ⟨Suit.clubs, 3⟩ [⟨Suit.spades, 13⟩, ⟨Suit.diamonds, 7⟩,
      ⟨Suit.hearts, 2⟩] = some ⟨Suit.clubs, 9⟩ := by
  decide

/-- Claim C9: the two copies of the encoder — `getFitchCheneyArrangement`
in App.tsx and the verification copy in verify_logic.ts — agree on every
hand of exactly 5 distinct cards (the App copy returns the verify copy's
arrangement wrapped in `Except.ok`). -/
theorem claim9_copies_agree (hand : List Card) (hlen : hand.length = 5)
    (_hnd : hand.Nodup) :
    getFitchCheneyArrangementApp hand =
      Except.ok (getFitchCheneyArrangement hand) := by
  have heq : getFitchCheneyArrangementApp hand =
      if hand.length = 5 then Except.ok (getFitchCheneyArrangement hand)
      else Except.error "Need exactly 5 cards" := rfl
  rw [heq, if_pos hlen]

/-- Claim C9 witness at a concrete 5-card hand. -/
theorem claim9_copies_agree_witness :
    ([⟨Suit.spades, 7⟩, ⟨Suit.clubs, 2⟩, ⟨Suit.spades, 9⟩,
        ⟨Suit.hearts, 13⟩, ⟨Suit.diamonds, 1⟩] : List Card).length = 5 ∧
    ([⟨Suit.spades, 7⟩, ⟨Suit.clubs, 2⟩, ⟨Suit.spades, 9⟩,
        ⟨Suit.hearts, 13⟩, ⟨Suit.diamonds, 1⟩] : List Card).Nodup ∧
    getFitchCheneyArrangementApp [⟨Suit.spades, 7⟩, ⟨Suit.clubs, 2⟩,
        ⟨Suit.spades, 9⟩, ⟨Suit.hearts, 13⟩, ⟨Suit.diamonds, 1⟩] =
      Except.ok (getFitchCheneyArrangement [⟨Suit.spades, 7⟩, ⟨Suit.clubs, 2⟩,
        ⟨Suit.spades, 9⟩, ⟨Suit.hearts, 13⟩, ⟨Suit.diamonds, 1⟩]) :=
  ⟨by decide, by decide, claim9_copies_agree _ (by decide) (by decide)⟩

/-- Claim C10 (amended): every 3-card code sequence — duplicates included —
matches one of the six permutations of its own sorted form, so the
unmatched offset-0 fallback of `decode` is unreachable for 3-card inputs:
`decode` always reports an offset in `[1, 6]` and returns a card of the
indicator's suit shifted by that offset. -/
theorem claim10_no_fallthrough (ind c1 c2 c3 : Card) :
    ∃ k, 1 ≤ k ∧ k ≤ 6 ∧
      decode ind [c1, c2, c3] = some ⟨ind.suit, (ind.value + k - 1) % 13 + 1⟩ := by
  have h3 : (sortByRank [c1, c2, c3]).length = 3 := by
    rw [sortByRank_length]
    rfl
  obtain ⟨L, M, H, hs⟩ := List.length_eq_three.mp h3
  have hpat := sortByRank_three_pattern c1 c2 c3 L M H hs
  have hb := decodeOffset_mem_of_pattern c1 c2 c3 L M H hpat
  exact ⟨decodeOffset c1 c2 c3 L M H, hb.1, hb.2,
    decode_eq ind L M H c1 c2 c3 [] [] hs⟩

/-- Claim C10 counterexample: a 3-card sequence with a duplicated card
(Hearts-2 twice) does match a permutation — the stable sort leaves it equal
to its own sorted form, so the offset is 1, not 0, and `decode` returns
rank 4, not the indicator's own rank 3. -/
theorem claim10_counterexample :
    decode ⟨Suit.clubs, 3⟩ [⟨Suit.hearts, 2⟩, ⟨Suit.hearts, 2⟩,
        ⟨Suit.spades, 13⟩] = some ⟨Suit.clubs, 4⟩ ∧
    decode ⟨Suit.clubs, 3⟩ [⟨Suit.hearts, 2⟩, ⟨Suit.hearts, 2⟩,
        ⟨Suit.spades, 13⟩] ≠ some ⟨Suit.clubs, 3⟩ := by
  decide
